import Mathlib

/-!
# Verification of the entity-resolution pipeline (`vendor_patches`)

A shallow embedding of the query-normalization, intent-classification,
probable-id extraction, candidate-scoring, and exact-lookup fallback code
of `src/vendor_patches/helpers.py` and the orchestrator
`semantically_contextualize` of `src/vendor_patches/patch_noahs_agent.py`.

Strings are modelled as `List Char` (one entry per Unicode code point,
matching Python's `str` indexing and `len`).  File I/O is modelled by
passing the knowledge-base file content as an `Option (List (List Char))`
(`none` = the file cannot be opened, `some lines` = its lines).  Scores,
which the Python code keeps as `float` values of the form `k/100` and
compares against decimal literals, are modelled as exact rationals.

The third-party library calls made by the source are embedded from the
libraries' documented algorithms:
* `unidecode` — per-code-point ASCII transliteration table restricted to
  the character repertoire exercised here (ASCII passes through, `é → "e"`,
  en dash `– → "-"`, em dash `— → "--"`, curly quotes to ASCII quotes, and
  the CJK ideograph `北 → "Bei "` with a trailing space, as documented in
  the library's README example `unidecode("北亰") = "Bei Jing "`);
  code points outside this repertoire transliterate to the empty string
  (the library's behaviour for untranslatable characters), and no theorem
  below depends on characters outside the repertoire.
* `unicodedata.normalize("NFKC", ·)` — the identity on every character of
  the modelled repertoire (all are NFKC-invariant).
* `rapidfuzz.fuzz.token_set_ratio` / `partial_ratio` — embedded from the
  library's algorithm (Indel-based `ratio`, set decomposition for
  `token_set_ratio`, sliding-window alignment for `partial_ratio`).
-/

namespace Cynthia

/- Batteries marks the rational arithmetic operations `@[irreducible]`;
restore the default reducibility locally so that concrete score
computations can be settled by `decide`. -/
attribute [local semireducible] Rat.add Rat.sub Rat.mul Rat.inv

set_option maxRecDepth 100000


/-- Code points of a string literal, the model of a Python `str`. -/
def str (s : String) : List Char := s.data

/-- Python whitespace for `str.strip()` / regex `\s` on the ASCII range
(the pipeline applies these to ASCII text or to literals containing no
other whitespace characters). -/
def isPyWs (c : Char) : Bool :=
  c = ' ' || c = '\t' || c = '\n' || c = '\x0d' || c = '\x0b' || c = '\x0c'

/-- `str.strip()`: remove leading and trailing whitespace. -/
def pyStrip (s : List Char) : List Char :=
  ((s.dropWhile isPyWs).reverse.dropWhile isPyWs).reverse

/-- `str.strip(chars)`: remove leading and trailing characters drawn from
`chars`. -/
def pyStripChars (chars : List Char) (s : List Char) : List Char :=
  ((s.dropWhile (chars.contains ·)).reverse.dropWhile (chars.contains ·)).reverse

/-- `unicodedata.normalize("NFKC", ·)`, per code point: the identity on the
modelled character repertoire (ASCII, `é`, the long dashes, curly quotes,
`北` are all NFKC-invariant). -/
def nfkcChar (c : Char) : Char := c

/-- `unidecode.unidecode`, per code point (see module docstring). -/
def unidecodeChar (c : Char) : List Char :=
  if c.val ≤ 127 then [c]
  else if c = 'é' then ['e']
  else if c = '–' then ['-']
  else if c = '—' then ['-', '-']
  else if c = '’' then ['\'']
  else if c = '“' then ['"']
  else if c = '”' then ['"']
  else if c = 'É' then ['E']
  else if c = '北' then str "Bei "
  else []

/-- The case-mapping table of the modelled repertoire. -/
def caseFoldPairs : List (Char × Char) :=
  [('A', 'a'), ('B', 'b'), ('C', 'c'), ('D', 'd'), ('E', 'e'), ('F', 'f'),
   ('G', 'g'), ('H', 'h'), ('I', 'i'), ('J', 'j'), ('K', 'k'), ('L', 'l'),
   ('M', 'm'), ('N', 'n'), ('O', 'o'), ('P', 'p'), ('Q', 'q'), ('R', 'r'),
   ('S', 's'), ('T', 't'), ('U', 'u'), ('V', 'v'), ('W', 'w'), ('X', 'x'),
   ('Y', 'y'), ('Z', 'z'), ('É', 'é')]

/-- `str.casefold()` applied to the `unidecode` output (ASCII text): ASCII
lower-casing.  The `É → é` entry covers the one modelled non-ASCII
upper-case letter so the same table also serves as Python's `str.lower()`
on the modelled repertoire. -/
def caseFoldChar (c : Char) : Char :=
  ((caseFoldPairs.find? (fun p => p.1 = c)).map Prod.snd).getD c

/-- Python `str.lower()` on the modelled repertoire (same table). -/
def pyLower (s : List Char) : List Char := s.map caseFoldChar

/-- `str.replace(old, new)` for a single-character `old`: replace every
occurrence. -/
def replaceChar (old : Char) (new : List Char) (s : List Char) : List Char :=
  s.flatMap (fun c => if c = old then new else [c])

theorem length_dropWhile_le (p : Char → Bool) (l : List Char) :
    (l.dropWhile p).length ≤ l.length :=
  (List.dropWhile_sublist p).length_le

/-- `re.sub(r"\s+", " ", s)`: collapse every maximal whitespace run into a
single space (emitted at the run's last character). -/
def collapseWs : List Char → List Char
  | [] => []
  | [c] => if isPyWs c then [' '] else [c]
  | c :: d :: rest =>
    if isPyWs c then
      (if isPyWs d then collapseWs (d :: rest) else ' ' :: collapseWs (d :: rest))
    else c :: collapseWs (d :: rest)

/-- `s.split(sep)` for a single-character separator (empty segments kept,
as in Python). -/
def splitOnCharPy (sep : Char) : List Char → List (List Char)
  | [] => [[]]
  | c :: rest =>
    if c = sep then [] :: splitOnCharPy sep rest
    else
      match splitOnCharPy sep rest with
      | [] => [[c]]
      | p :: ps => (c :: p) :: ps

/--
`normalize_query_text(message)` of `helpers.py`:
strip, NFKC, `unidecode(...).casefold()`, replace long dashes by `" - "`,
collapse whitespace, split on single spaces discarding empty tokens.
Returns `(normalized_msg, msg_tokens)`.
-/
def normalize_query_text (message : Option (List Char)) :
    List Char × List (List Char) :=
  let s0 := pyStrip (message.getD [])
  let s1 := s0.map nfkcChar
  let s2 := (s1.flatMap unidecodeChar).map caseFoldChar
  let s3 := replaceChar '–' (str " - ") (replaceChar '—' (str " - ") s2)
  let s4 := collapseWs s3
  (s4, (splitOnCharPy ' ' s4).filter (fun t => t ≠ []))

/-- `PUNCT_CHARS` of `helpers.py` (the braces written as escapes). -/
def PUNCT_CHARS : List Char := str ".,:;!?()[]\x7b\x7d'\"’“”`"

/--
`intent_from_tokens(msg_tokens)` of `helpers.py`: punctuation-strip each
token, then flag categories by token membership.  Returns
`(wants_item, wants_pokemon, wants_move, allowed)`; the `allowed` set is
modelled as the list built in the source's insertion order.
-/
def intent_from_tokens (msg_tokens : List (List Char)) :
    Bool × Bool × Bool × List (List Char) :=
  let tokens_norm := msg_tokens.map (pyStripChars PUNCT_CHARS)
  let wants_item := tokens_norm.contains (str "item")
  let wants_pokemon :=
    tokens_norm.contains (str "pokemon") || tokens_norm.contains (str "pokémon")
  let wants_move :=
    tokens_norm.contains (str "move") || tokens_norm.contains (str "moves")
  let allowed :=
    (if wants_item then [str "item"] else []) ++
    (if wants_pokemon then [str "pokemon"] else []) ++
    (if wants_move then [str "move"] else [])
  (wants_item, wants_pokemon, wants_move, allowed)

/-- `CATEGORY_TOKENS` of `helpers.py`, in source order. -/
def CATEGORY_TOKENS : List (List Char) :=
  [str "item", str "pokemon", str "pokémon", str "move", str "moves"]

/-- Regex `\w` (word character) on the modelled repertoire: ASCII
alphanumerics, underscore, and the modelled letters `é` and `北`. -/
def isWordChar (c : Char) : Bool :=
  ('a' ≤ c && c ≤ 'z') || ('A' ≤ c && c ≤ 'Z') || ('0' ≤ c && c ≤ '9') ||
  c = '_' || c = 'é' || c = 'É' || c = '北'

/-- One attempt of the alternation `\b(item|pokemon|pokémon|move|moves)\b`
at a fixed position: `prev` is the character before the position (`none`
at the string start), `rest` the remaining text.  Alternatives are tried
in the pattern's order (the same order as `CATEGORY_TOKENS`); returns the
length of the first alternative that matches with word boundaries on both
sides (every alternative starts and ends with a word character, so `\b`
reduces to the neighbour checks). -/
def tryCatAt (prev : Option Char) (rest : List Char) : Option Nat :=
  let boundaryBefore : Bool := match prev with
    | none => true
    | some c => !isWordChar c
  let boundaryAfterAt (n : Nat) : Bool :=
    match (rest.drop n).head? with
    | none => true
    | some c => !isWordChar c
  (CATEGORY_TOKENS.find?
    (fun w => boundaryBefore && w.isPrefixOf rest && boundaryAfterAt w.length)).map
    List.length

/-- Leftmost-match scan of the category regex; carries the previous
character and the absolute index.  Returns `(start, end)` of the first
match. -/
def findCatAux (prev : Option Char) (rest : List Char) (i : Nat) :
    Option (Nat × Nat) :=
  match rest with
  | [] => (tryCatAt prev []).map (fun wl => (i, i + wl))
  | c :: rs =>
    match tryCatAt prev (c :: rs) with
    | some wl => some (i, i + wl)
    | none => findCatAux (some c) rs (i + 1)

/-- `re.search(r"\b(item|pokemon|pokémon|move|moves)\b", normalized_msg)`:
the `(start, end)` span of the leftmost match, if any. -/
def findCategoryMatch (s : List Char) : Option (Nat × Nat) :=
  findCatAux none s 0

/-- Python `str.find(sub)`: index of the first occurrence, `-1` if absent. -/
def pyFind (s sub : List Char) : Int :=
  go s 0
where
  go : List Char → Nat → Int
    | l, i =>
      if sub.isPrefixOf l then (i : Int)
      else
        match l with
        | [] => -1
        | _ :: rest => go rest (i + 1)

/-- Python slicing `s[i:]` for a possibly negative `i`. -/
def pySliceFrom (s : List Char) (i : Int) : List Char :=
  if 0 ≤ i then s.drop i.toNat
  else s.drop (Int.toNat (Int.ofNat s.length + i))

/-- `LEAD_IN_TOKENS` of `helpers.py`, in the order of the alternation of
`lead_pattern = r"^(?:(?::|\-|about|information|info|on|of|the|named|called)\s*)+"`. -/
def LEAD_IN_TOKENS : List (List Char) :=
  [str ":", str "-", str "about", str "information", str "info",
   str "on", str "of", str "the", str "named", str "called"]

/-- One consumption step of the lead-in pattern: if one of the
alternatives (tried in the pattern's order) is a literal prefix of `s`,
consume it together with the following whitespace run (`\s*`).  Note the
alternatives are matched as raw prefixes — exactly as the regex does —
not as whole tokens. -/
def consumeLead (s : List Char) : Option (List Char) :=
  (LEAD_IN_TOKENS.find? (fun w => w.isPrefixOf s)).map
    (fun w => (s.drop w.length).dropWhile isPyWs)

/-- Every successful `consumeLead` consumes at least one character. -/
theorem consumeLead_length {s r : List Char} (h : consumeLead s = some r) :
    r.length < s.length := by
  unfold consumeLead at h
  cases hf : LEAD_IN_TOKENS.find? (fun w => w.isPrefixOf s) with
  | none => rw [hf] at h; simp at h
  | some w =>
    rw [hf] at h
    have h' : (s.drop w.length).dropWhile isPyWs = r := by simpa using h
    subst h'
    have hp : w.isPrefixOf s = true := by
      have := List.find?_some hf
      simpa using this
    have hmem : w ∈ LEAD_IN_TOKENS := List.mem_of_find?_eq_some hf
    have hne : w ≠ [] := by
      have hall : ∀ x ∈ LEAD_IN_TOKENS, x ≠ [] := by decide
      exact hall w hmem
    have hle : w.length ≤ s.length := (List.isPrefixOf_iff_prefix.mp hp).length_le
    have h1 : ((s.drop w.length).dropWhile isPyWs).length ≤ (s.drop w.length).length :=
      length_dropWhile_le _ _
    have h2 : (s.drop w.length).length = s.length - w.length := List.length_drop _ _
    have hwpos : 0 < w.length := List.length_pos.mpr hne
    omega

/-- The `+` of the lead-in pattern combined with the source's
`while prev != tail` loop: consume lead-ins until none matches.  (A single
anchored `re.sub` already consumes greedily; the result is a fixed point
of `consumeLead`, so the outer `while` loop stops after one round.)
Each successful round consumes at least one character
(`consumeLead_length`), so `s.length` rounds of fuel always reach the
fixed point. -/
def leadManyFuel : Nat → List Char → List Char
  | 0, s => s
  | n + 1, s =>
    match consumeLead s with
    | none => s
    | some r => leadManyFuel n r

def leadMany (s : List Char) : List Char :=
  leadManyFuel s.length s

/--
`extract_probable_id(normalized_msg, msg_tokens)` of `helpers.py`:
pick the first `CATEGORY_TOKENS` entry present among the raw or
punctuation-stripped tokens; locate the first whole-word regex match of
any category word in `normalized_msg` (falling back to `str.find` of the
chosen token); take the text after that position; strip lead-ins.
Returns `(probable_id, category_token_used)`.
-/
def extract_probable_id (normalized_msg : List Char)
    (msg_tokens : List (List Char)) :
    Option (List Char) × Option (List Char) :=
  let stripped := msg_tokens.map (pyStripChars PUNCT_CHARS)
  match CATEGORY_TOKENS.find?
      (fun t => msg_tokens.contains t || stripped.contains t) with
  | none => (none, none)
  | some cat_tok =>
    let pos : Int :=
      match findCategoryMatch normalized_msg with
      | some (_, e) => (e : Int)
      | none => pyFind normalized_msg cat_tok
    let tail0 := pyStrip (pySliceFrom normalized_msg pos)
    let tail := leadMany tail0
    (if tail = [] then none else some tail, some cat_tok)

/-- `kb_header_from_flags` of `helpers.py`: item > pokemon > move (the
`move` header is returned unconditionally by the source's last line). -/
def kb_header_from_flags (wants_item wants_pokemon wants_move : Bool) :
    List Char :=
  if wants_item then str "item"
  else if wants_pokemon then str "pokemon"
  else
    let _ := wants_move
    str "move"

/-! ## The rapidfuzz similarity measures -/

/-- Length of a longest common subsequence (the classic recursion), with
explicit fuel: every recursive call shortens `a` or `b`, so
`a.length + b.length` steps always complete the computation. -/
def lcsFuel : Nat → List Char → List Char → Nat
  | 0, _, _ => 0
  | _ + 1, [], _ => 0
  | _ + 1, _ :: _, [] => 0
  | n + 1, a :: as, b :: bs =>
    if a = b then 1 + lcsFuel n as bs
    else max (lcsFuel n (a :: as) bs) (lcsFuel n as (b :: bs))

/-- Length of a longest common subsequence. -/
def lcs (a b : List Char) : Nat :=
  lcsFuel (a.length + b.length) a b

/-- The Indel distance (insertions + deletions) used by `rapidfuzz.ratio`. -/
def indelDist (a b : List Char) : Nat :=
  a.length + b.length - 2 * lcs a b

/-- `rapidfuzz.fuzz.ratio`, unnormalized in `[0, 100]`: the normalized
Indel similarity `100·(1 − dist/(|a|+|b|))`, with `100` for two empty
strings. -/
def fuzzRatio (a b : List Char) : ℚ :=
  if a.length + b.length = 0 then 100
  else 100 - 100 * (indelDist a b : ℚ) / ((a.length + b.length : Nat) : ℚ)

/-- Binary maximum on `ℚ` written out so that the kernel can evaluate it
(definitionally equal to `max`, see `qmax_eq_max`). -/
def qmax (a b : ℚ) : ℚ := if a ≤ b then b else a

theorem qmax_eq_max (a b : ℚ) : qmax a b = max a b := by
  unfold qmax
  by_cases h : a ≤ b
  · rw [if_pos h]
    exact (max_eq_right h).symm
  · rw [if_neg h]
    exact (max_eq_left (le_of_not_le h)).symm

/--
`rapidfuzz.fuzz.partial_ratio`: the best `fuzzRatio` alignment of the
shorter string against windows of the longer one — every prefix shorter
than the needle, every needle-length window, and every suffix shorter
than the needle (the set of windows scanned by the library's
short-needle loop; the library's character-set skip heuristic never
changes the maximum for a non-empty needle, and an empty needle scores
`0` against non-empty text because every window is skipped).

`bestWindowRatio` is the window scan for a non-empty needle:
-/
def bestWindowRatio (shorter longer : List Char) : ℚ :=
  let l1 := shorter.length
  let l2 := longer.length
  let pfxWins := (List.range (l1 - 1)).map (fun k => longer.take (k + 1))
  let fullWins := (List.range (l2 - l1 + 1)).map (fun i => (longer.drop i).take l1)
  let sfxWins := (List.range (l1 - 1)).map (fun k => longer.drop (l2 - l1 + 1 + k))
  ((pfxWins ++ fullWins ++ sfxWins).map (fun w => fuzzRatio shorter w)).foldl qmax 0

def partial_ratio (s1 s2 : List Char) : ℚ :=
  let shorter := if s1.length ≤ s2.length then s1 else s2
  let longer := if s1.length ≤ s2.length then s2 else s1
  if shorter.length = 0 then (if longer.length = 0 then 100 else 0)
  else bestWindowRatio shorter longer

/-- Python `s.split()` (no separator) with explicit fuel: each round
consumes at least the token's head character, so `s.length` rounds always
reach the end of the string. -/
def pyWsSplitFuel : Nat → List Char → List (List Char)
  | 0, _ => []
  | n + 1, s =>
    match s.dropWhile isPyWs with
    | [] => []
    | c :: rest =>
      (c :: rest.takeWhile (fun d => !isPyWs d)) ::
        pyWsSplitFuel n (rest.dropWhile (fun d => !isPyWs d))

/-- Python `s.split()` (no separator): split on whitespace runs, no empty
tokens. -/
def pyWsSplit (s : List Char) : List (List Char) :=
  pyWsSplitFuel s.length s

/-- Code-point lexicographic order on strings (Python `sorted` order). -/
def lexLe : List Char → List Char → Bool
  | [], _ => true
  | _ :: _, [] => false
  | a :: as, b :: bs =>
    if a.val < b.val then true
    else if b.val < a.val then false
    else lexLe as bs

def insertSorted (x : List Char) : List (List Char) → List (List Char)
  | [] => [x]
  | y :: ys => if lexLe x y then x :: y :: ys else y :: insertSorted x ys

/-- Insertion sort by `lexLe`. -/
def sortStrs : List (List Char) → List (List Char)
  | [] => []
  | x :: xs => insertSorted x (sortStrs xs)

/-- Remove adjacent duplicates (applied after sorting: set semantics). -/
def dedupSorted : List (List Char) → List (List Char)
  | [] => []
  | [x] => [x]
  | x :: y :: rest =>
    if x = y then dedupSorted (y :: rest) else x :: dedupSorted (y :: rest)

/-- The sorted set of whitespace tokens of a string, as used by
`token_set_ratio`. -/
def tokenSetOf (s : List Char) : List (List Char) :=
  dedupSorted (sortStrs (pyWsSplit s))

/--
`rapidfuzz.fuzz.token_set_ratio`: decompose the two sorted token sets
into intersection and differences; return `100` when one token set is
contained in the other (non-empty intersection with an empty difference),
`0` when either token set is empty; otherwise the maximum of the Indel
ratios `sect+diff_ab ↔ sect+diff_ba` (computed from the joined
differences, the common `sect` prefix contributing no edits) and
`sect ↔ sect+diff_ab`, `sect ↔ sect+diff_ba` (computed analytically from
the joined lengths, + 1 for the joining space when `sect` is non-empty).
-/
def token_set_ratio (s1 s2 : List Char) : ℚ :=
  let sa := tokenSetOf s1
  let sb := tokenSetOf s2
  if sa = [] ∨ sb = [] then 0
  else
    let sect := sa.filter (fun t => sb.contains t)
    let diff_ab := sa.filter (fun t => !sb.contains t)
    let diff_ba := sb.filter (fun t => !sa.contains t)
    if sect ≠ [] ∧ (diff_ab = [] ∨ diff_ba = []) then 100
    else
      let jab := List.intercalate (str " ") diff_ab
      let jba := List.intercalate (str " ") diff_ba
      let ab_len := jab.length
      let ba_len := jba.length
      let sect_len := (List.intercalate (str " ") sect).length
      let sepLen : Nat := if sect_len = 0 then 0 else 1
      let sect_ab_len := sect_len + sepLen + ab_len
      let sect_ba_len := sect_len + sepLen + ba_len
      let result : ℚ :=
        100 - 100 * (indelDist jab jba : ℚ) / ((sect_ab_len + sect_ba_len : Nat) : ℚ)
      if sect_len = 0 then result
      else
        qmax result (qmax
          (100 - 100 * ((sepLen + ab_len : Nat) : ℚ) / ((sect_len + sect_ab_len : Nat) : ℚ))
          (100 - 100 * ((sepLen + ba_len : Nat) : ℚ) / ((sect_len + sect_ba_len : Nat) : ℚ)))

/-! ## Candidate scoring and selection -/

/-- A semantic-search result `{text, distance, metadata}`; only the fields
read by the scorer are modelled, with `distance` an exact rational
(`none` = missing, treated as `+∞` by the tie-break). -/
structure Candidate where
  text : Option (List Char)
  distance : Option ℚ
deriving DecidableEq

/-- `text.split(KB_HEADER_SEP)` for the header separator `" — "`
(space, em dash, space), Python `str.split` semantics. -/
def splitKbSep : List Char → List (List Char)
  | [] => [[]]
  | ' ' :: '—' :: ' ' :: rest => [] :: splitKbSep rest
  | c :: rest =>
    match splitKbSep rest with
    | [] => [[c]]
    | p :: ps => (c :: p) :: ps

/-- The declared id of a candidate's text: second `" — "` field, trimmed
and lowercased; `""` when the header has fewer than two fields. -/
def candidate_id_of (text : Option (List Char)) : List Char :=
  let parts := splitKbSep (pyStrip (text.getD []))
  if 2 ≤ parts.length then pyLower (pyStrip (parts.getD 1 [])) else []

/-- The per-candidate similarity computed inside
`select_best_by_id_similarity`: `0.0` for an empty id, otherwise the
maximum of the two rapidfuzz measures scaled to `[0, 1]`. -/
def id_similarity (normalized_msg candidate_id : List Char) : ℚ :=
  if candidate_id = [] then 0
  else qmax (token_set_ratio normalized_msg candidate_id / 100)
            (partial_ratio normalized_msg candidate_id / 100)

/-- `d_cur < d_best` with a missing distance read as `float("inf")`. -/
def distLtOpt (a b : Option ℚ) : Bool :=
  match a, b with
  | some x, some y => decide (x < y)
  | some _, none => true
  | none, _ => false

/-- One iteration of the selection loop of
`select_best_by_id_similarity`. -/
def selectStep (normalized_msg : List Char) (st : Option Candidate × ℚ)
    (item : Candidate) : Option Candidate × ℚ :=
  let score := id_similarity normalized_msg (candidate_id_of item.text)
  if st.2 < score then (some item, score)
  else if score = st.2 ∧ st.1.isSome then
    match st.1 with
    | some b => if distLtOpt item.distance b.distance then (some item, st.2) else st
    | none => st
  else st

/--
`select_best_by_id_similarity(results, normalized_msg, msg_tokens)` of
`helpers.py`: running best over the candidates starting from
`(None, -1.0)`, strict improvement on score, tie-break on smaller
distance; if no candidate was selected and the list is non-empty the
first candidate is returned.  (`msg_tokens` is accepted and unused, as in
the source.)
-/
def select_best_by_id_similarity (results : Option (List Candidate))
    (normalized_msg : List Char) (msg_tokens : List (List Char)) :
    Option Candidate × ℚ :=
  let _ := msg_tokens
  let l := results.getD []
  let st := l.foldl (selectStep normalized_msg) (none, -1)
  let best := match st.1 with
    | some b => some b
    | none => l.head?
  (best, st.2)

/-! ## Exact-lookup fallback -/

def KB_DEFAULT_PATH : List Char := str "data/processed/pokemon_kb.txt"

/-- `resolve_kb_path(semantic_where)` of `helpers.py`, with
`semantic_where` modelled as the optional `doc_name` entry. -/
def resolve_kb_path (semantic_where : Option (List Char)) : List Char :=
  match semantic_where with
  | some doc_name =>
    if doc_name = [] then KB_DEFAULT_PATH else str "data/processed/" ++ doc_name
  | none => KB_DEFAULT_PATH

/-- The target `"<header> — <probable_id.strip().lower()> —"` built by
`find_exact_kb_line`. -/
def exact_target (kb_header pid : List Char) : List Char :=
  kb_header ++ str " — " ++ pyLower (pyStrip pid) ++ str " —"

/--
`find_exact_kb_line(kb_path, kb_header, probable_id)` of `helpers.py`,
with the opened file modelled as `kb_file : Option (List (List Char))`
(`none` = the `open` call raises and the `except` branch returns `None`).
An empty or missing `probable_id` returns `None` before any file access;
otherwise the first line whose trimmed, lowercased form starts with the
target prefix is returned trimmed, in its original casing.
-/
def find_exact_kb_line (kb_file : Option (List (List Char)))
    (kb_header : List Char) (probable_id : Option (List Char)) :
    Option (List Char) :=
  match probable_id with
  | none => none
  | some pid =>
    if pid = [] then none
    else
      match kb_file with
      | none => none
      | some lines =>
        (lines.find? (fun line =>
          (exact_target kb_header pid).isPrefixOf (pyLower (pyStrip line)))).map
          pyStrip

/-! ## The orchestrator -/

/--
The resolution core of `semantically_contextualize` of
`patch_noahs_agent.py`: normalize, classify intent, score the externally
retrieved candidates, and fall back to the exact knowledge-base lookup
when intent is clear and the match is weak.  File access is modelled by
`kb_files : path ↦ Option lines`.  Returns the chosen context text (or
`none`, in which case the caller adds no context) and the reported score.
-/
def semantically_contextualize (message : Option (List Char))
    (results : Option (List Candidate))
    (kb_files : List Char → Option (List (List Char)))
    (semantic_where : Option (List Char)) : Option (List Char) × ℚ :=
  let nm := (normalize_query_text message).1
  let toks := (normalize_query_text message).2
  let intt := intent_from_tokens toks
  let wants_item := intt.1
  let wants_pokemon := intt.2.1
  let wants_move := intt.2.2.1
  let sel := select_best_by_id_similarity results nm toks
  let best := sel.1
  let best_score := sel.2
  let context : Option (List Char) := best.map (fun b => b.text.getD [])
  let wants_any := wants_item || wants_pokemon || wants_move
  let weak_match : Bool := decide (best_score < 49/50) || context.isNone
  if wants_any && weak_match then
    let probable_id := (extract_probable_id nm toks).1
    let kb_header := kb_header_from_flags wants_item wants_pokemon wants_move
    let kb_path := resolve_kb_path semantic_where
    match find_exact_kb_line (kb_files kb_path) kb_header probable_id with
    | some exact_line => (some exact_line, 1)
    | none => (context, best_score)
  else (context, best_score)

/-! ## Lemmas: folded maxima -/

theorem init_le_foldl_max {α : Type} (f : α → ℚ) :
    ∀ (l : List α) (init : ℚ), init ≤ l.foldl (fun a y => max a (f y)) init := by
  intro l
  induction l with
  | nil => intro init; simp
  | cons c t ih =>
    intro init
    calc init ≤ max init (f c) := le_max_left _ _
    _ ≤ t.foldl (fun a y => max a (f y)) (max init (f c)) := ih _

theorem le_foldl_max_of_mem {α : Type} (f : α → ℚ) :
    ∀ (l : List α) (init : ℚ) (x : α), x ∈ l →
      f x ≤ l.foldl (fun a y => max a (f y)) init := by
  intro l
  induction l with
  | nil => intro init x hx; simp at hx
  | cons c t ih =>
    intro init x hx
    rcases List.mem_cons.mp hx with h | h
    · subst h
      calc f x ≤ max init (f x) := le_max_right _ _
      _ ≤ t.foldl (fun a y => max a (f y)) (max init (f x)) := init_le_foldl_max f t _
    · exact ih _ x h

theorem foldl_max_le {α : Type} (f : α → ℚ) :
    ∀ (l : List α) (init b : ℚ), init ≤ b → (∀ x ∈ l, f x ≤ b) →
      l.foldl (fun a y => max a (f y)) init ≤ b := by
  intro l
  induction l with
  | nil => intro init b h0 _; simpa using h0
  | cons c t ih =>
    intro init b h0 h
    exact ih _ b (max_le h0 (h c (List.mem_cons_self _ _)))
      (fun x hx => h x (List.mem_cons_of_mem _ hx))

/-! ## Lemmas: the rapidfuzz measures -/

theorem lcsFuel_self : ∀ (n : Nat) (a : List Char), a.length ≤ n →
    lcsFuel n a a = a.length := by
  intro n
  induction n with
  | zero =>
    intro a ha
    have : a = [] := List.length_eq_zero.mp (Nat.le_zero.mp ha)
    subst this
    rfl
  | succ n ih =>
    intro a ha
    cases a with
    | nil => rfl
    | cons c t =>
      rw [lcsFuel, if_pos rfl, ih t (by simpa using Nat.lt_succ_iff.mp ha)]
      simp [Nat.add_comm]

theorem lcs_self (a : List Char) : lcs a a = a.length := by
  unfold lcs
  exact lcsFuel_self _ _ (by omega)

theorem fuzzRatio_le_100 (a b : List Char) : fuzzRatio a b ≤ 100 := by
  unfold fuzzRatio
  split
  · exact le_refl _
  · have h : (0 : ℚ) ≤ 100 * (indelDist a b : ℚ) / ((a.length + b.length : Nat) : ℚ) := by
      positivity
    linarith

theorem fuzzRatio_self (a : List Char) : fuzzRatio a a = 100 := by
  unfold fuzzRatio
  split
  · rfl
  · have h : indelDist a a = 0 := by
      unfold indelDist
      rw [lcs_self]
      omega
    rw [h]
    norm_num

theorem bestWindowRatio_le_100 (shorter longer : List Char) :
    bestWindowRatio shorter longer ≤ 100 := by
  unfold bestWindowRatio
  rw [List.foldl_map]
  simp only [qmax_eq_max]
  exact foldl_max_le _ _ _ _ (by norm_num)
    (fun w _ => fuzzRatio_le_100 shorter w)

theorem bestWindowRatio_eq_100_of_substring {needle hay : List Char}
    (hne : needle ≠ []) (hinf : needle <:+: hay) :
    bestWindowRatio needle hay = 100 := by
  obtain ⟨pre, post, hsplit⟩ := hinf
  have hlen : needle.length ≤ hay.length := by
    rw [← hsplit]; simp; omega
  have hwin : (hay.drop pre.length).take needle.length = needle := by
    rw [← hsplit]
    rw [List.append_assoc, List.drop_left, List.take_left]
  have hmem : needle ∈
      (List.range (hay.length - needle.length + 1)).map
        (fun i => (hay.drop i).take needle.length) := by
    refine List.mem_map.mpr ⟨pre.length, List.mem_range.mpr ?_, hwin⟩
    have : hay.length = pre.length + needle.length + post.length := by
      rw [← hsplit]; simp; omega
    omega
  apply le_antisymm (bestWindowRatio_le_100 _ _)
  unfold bestWindowRatio
  rw [List.foldl_map]
  simp only [qmax_eq_max]
  have := le_foldl_max_of_mem (fun w => fuzzRatio needle w)
    ((List.range (needle.length - 1)).map (fun k => hay.take (k + 1)) ++
     (List.range (hay.length - needle.length + 1)).map
       (fun i => (hay.drop i).take needle.length) ++
     (List.range (needle.length - 1)).map
       (fun k => hay.drop (hay.length - needle.length + 1 + k)))
    0 needle
    (by
      refine List.mem_append.mpr (Or.inl ?_)
      exact List.mem_append.mpr (Or.inr hmem))
  simpa [fuzzRatio_self] using this

theorem partial_ratio_eq_100_of_substring {q cid : List Char}
    (hne : cid ≠ []) (hinf : cid <:+: q) :
    partial_ratio q cid = 100 := by
  have hlen : cid.length ≤ q.length := hinf.length_le
  unfold partial_ratio
  dsimp only
  by_cases hc : q.length ≤ cid.length
  · have heq : cid = q := hinf.eq_of_length (le_antisymm hlen hc)
    subst heq
    simp only [hc, if_true]
    have hne' : ¬ cid.length = 0 := by simpa using hne
    rw [if_neg hne']
    exact bestWindowRatio_eq_100_of_substring hne (List.infix_rfl)
  · simp only [hc, if_false]
    have hne' : ¬ cid.length = 0 := by simpa using hne
    rw [if_neg hne']
    exact bestWindowRatio_eq_100_of_substring hne hinf

theorem sub_ratio_le_100 (d l : Nat) : (100 : ℚ) - 100 * (d : ℚ) / (l : ℚ) ≤ 100 := by
  have h : (0:ℚ) ≤ 100 * (d : ℚ) / (l : ℚ) := by positivity
  linarith

theorem token_set_ratio_le_100 (s1 s2 : List Char) :
    token_set_ratio s1 s2 ≤ 100 := by
  unfold token_set_ratio
  dsimp only
  split
  · norm_num
  · split
    · exact le_refl _
    · split
      · exact sub_ratio_le_100 _ _
      · simp only [qmax_eq_max]
        exact max_le (sub_ratio_le_100 _ _)
          (max_le (sub_ratio_le_100 _ _) (sub_ratio_le_100 _ _))

theorem partial_ratio_le_100 (s1 s2 : List Char) : partial_ratio s1 s2 ≤ 100 := by
  unfold partial_ratio
  dsimp only
  by_cases hc : s1.length ≤ s2.length
  · simp only [if_pos hc]
    split
    · split <;> norm_num
    · exact bestWindowRatio_le_100 _ _
  · simp only [if_neg hc]
    split
    · split <;> norm_num
    · exact bestWindowRatio_le_100 _ _

/-! ## Lemmas: per-candidate similarity -/

theorem id_similarity_le_one (nm cid : List Char) : id_similarity nm cid ≤ 1 := by
  unfold id_similarity
  split
  · norm_num
  · simp only [qmax_eq_max]
    refine max_le ?_ ?_
    · rw [div_le_one (by norm_num)]
      exact token_set_ratio_le_100 _ _
    · rw [div_le_one (by norm_num)]
      exact partial_ratio_le_100 _ _

theorem id_similarity_eq_one_of_substring {nm cid : List Char}
    (hne : cid ≠ []) (hinf : cid <:+: nm) : id_similarity nm cid = 1 := by
  unfold id_similarity
  rw [if_neg hne]
  rw [partial_ratio_eq_100_of_substring hne hinf]
  simp only [qmax_eq_max]
  norm_num
  rw [div_le_one (by norm_num)]
  exact token_set_ratio_le_100 _ _

theorem id_similarity_of_empty (nm : List Char) : id_similarity nm [] = 0 := by
  unfold id_similarity
  rw [if_pos rfl]

/-! ## Lemmas: the selection loop -/

theorem selectStep_snd (nm : List Char) (st : Option Candidate × ℚ)
    (item : Candidate) :
    (selectStep nm st item).2 =
      max st.2 (id_similarity nm (candidate_id_of item.text)) := by
  unfold selectStep
  dsimp only
  by_cases h : st.2 < id_similarity nm (candidate_id_of item.text)
  · rw [if_pos h]
    exact (max_eq_right h.le).symm
  · rw [if_neg h]
    push_neg at h
    rw [max_eq_left h]
    split
    · split
      · split <;> rfl
      · rfl
    · rfl

theorem foldl_selectStep_snd (nm : List Char) :
    ∀ (l : List Candidate) (st : Option Candidate × ℚ),
      (l.foldl (selectStep nm) st).2 =
        l.foldl (fun a c => max a (id_similarity nm (candidate_id_of c.text))) st.2 := by
  intro l
  induction l with
  | nil => intro st; rfl
  | cons c t ih =>
    intro st
    simp only [List.foldl_cons]
    rw [ih, selectStep_snd]

/-- The score returned by `select_best_by_id_similarity` is the maximum of
the per-candidate similarities and the initial sentinel `-1.0`. -/
theorem select_best_score_eq (results : Option (List Candidate))
    (nm : List Char) (toks : List (List Char)) :
    (select_best_by_id_similarity results nm toks).2 =
      (results.getD []).foldl
        (fun a c => max a (id_similarity nm (candidate_id_of c.text))) (-1) := by
  unfold select_best_by_id_similarity
  dsimp only
  rw [foldl_selectStep_snd]

/-- The candidate the tie-break loop converges to when every candidate
scores alike: the earliest candidate attaining the minimal reported
distance (a missing distance counting as `+∞`).  This is the selection the
spec's "first candidate" sentence is corrected to. -/
def first_min_by_distance : List Candidate → Option Candidate
  | [] => none
  | c :: cs =>
    some (cs.foldl (fun b x => if distLtOpt x.distance b.distance then x else b) c)

theorem foldl_selectStep_headerless (nm : List Char) :
    ∀ (cs : List Candidate) (b : Candidate),
      (∀ x ∈ cs, candidate_id_of x.text = []) →
      cs.foldl (selectStep nm) (some b, 0) =
        (some (cs.foldl
          (fun b x => if distLtOpt x.distance b.distance then x else b) b), 0) := by
  intro cs
  induction cs with
  | nil => intro b _; rfl
  | cons x t ih =>
    intro b hall
    have hx : candidate_id_of x.text = [] := hall x (List.mem_cons_self _ _)
    have hstep : selectStep nm (some b, 0) x =
        (some (if distLtOpt x.distance b.distance then x else b), 0) := by
      unfold selectStep
      dsimp only
      rw [hx, id_similarity_of_empty]
      rw [if_neg (lt_irrefl (0 : ℚ))]
      rw [if_pos ⟨rfl, rfl⟩]
      by_cases hd : distLtOpt x.distance b.distance
      · simp [hd]
      · simp [hd]
    simp only [List.foldl_cons]
    rw [hstep]
    exact ih _ (fun y hy => hall y (List.mem_cons_of_mem _ hy))

/-- On a non-empty candidate list in which no candidate has an
identifiable header, the selection loop returns the earliest candidate of
minimal distance, with score `0.0`. -/
theorem select_best_headerless (nm : List Char) (toks : List (List Char))
    (c : Candidate) (cs : List Candidate)
    (hall : ∀ x ∈ c :: cs, candidate_id_of x.text = []) :
    select_best_by_id_similarity (some (c :: cs)) nm toks =
      (first_min_by_distance (c :: cs), 0) := by
  unfold select_best_by_id_similarity first_min_by_distance
  dsimp only
  simp only [Option.getD_some, List.foldl_cons]
  have hc : candidate_id_of c.text = [] := hall c (List.mem_cons_self _ _)
  have hfirst : selectStep nm (none, -1) c = (some c, 0) := by
    unfold selectStep
    dsimp only
    rw [hc, id_similarity_of_empty]
    rw [if_pos (by norm_num : (-1 : ℚ) < 0)]
  rw [hfirst,
    foldl_selectStep_headerless nm cs c
      (fun y hy => hall y (List.mem_cons_of_mem _ hy))]

/-! ## Lemmas: the category-marker scan -/

/-- The character immediately before position `k` of `s` (`none` at the
string start). -/
def charBefore (s : List Char) (k : Nat) : Option Char :=
  if k = 0 then none else (s.drop (k - 1)).head?

theorem pySliceFrom_natCast (s : List Char) (n : Nat) :
    pySliceFrom s (n : Int) = s.drop n := by
  unfold pySliceFrom
  simp

theorem findCatAux_spec :
    ∀ (rest : List Char) (prev : Option Char) (i p e : Nat),
      findCatAux prev rest i = some (p, e) →
      ∃ k wl, p = i + k ∧ e = p + wl ∧
        tryCatAt (if k = 0 then prev else (rest.drop (k - 1)).head?)
          (rest.drop k) = some wl ∧
        (∀ j, j < k →
          tryCatAt (if j = 0 then prev else (rest.drop (j - 1)).head?)
            (rest.drop j) = none) := by
  intro rest
  induction rest with
  | nil =>
    intro prev i p e h
    simp only [findCatAux] at h
    cases htry : tryCatAt prev [] with
    | some wl =>
      rw [htry] at h
      have hpe : (i, i + wl) = (p, e) := by simpa using h
      obtain ⟨hp, he⟩ := Prod.mk.injEq _ _ _ _ |>.mp hpe
      refine ⟨0, wl, by omega, by omega, by simpa using htry,
        fun j hj => absurd hj (Nat.not_lt_zero j)⟩
    | none =>
      rw [htry] at h
      simp at h
  | cons c rs ih =>
    intro prev i p e h
    simp only [findCatAux] at h
    cases htry : tryCatAt prev (c :: rs) with
    | some wl =>
      rw [htry] at h
      have hpe : (i, i + wl) = (p, e) := by simpa using h
      obtain ⟨hp, he⟩ := Prod.mk.injEq _ _ _ _ |>.mp hpe
      refine ⟨0, wl, by omega, by omega, by simpa using htry,
        fun j hj => absurd hj (Nat.not_lt_zero j)⟩
    | none =>
      rw [htry] at h
      have h := h
      obtain ⟨k', wl, hp, he, hmatch, hnone⟩ := ih (some c) (i + 1) p e h
      refine ⟨k' + 1, wl, by omega, he, ?_, ?_⟩
      · cases k' with
        | zero => simpa using hmatch
        | succ m => simpa using hmatch
      · intro j hj
        cases j with
        | zero => simpa using htry
        | succ m =>
          have hm : m < k' := by omega
          have hthis := hnone m hm
          cases m with
          | zero => simpa using hthis
          | succ m' => simpa using hthis

/-- The span returned by `findCategoryMatch` is a whole-word match of one
of the category alternatives, and it is the leftmost one. -/
theorem findCategoryMatch_leftmost (s : List Char) (p e : Nat)
    (h : findCategoryMatch s = some (p, e)) :
    (∃ wl, e = p + wl ∧ tryCatAt (charBefore s p) (s.drop p) = some wl) ∧
    (∀ j, j < p → tryCatAt (charBefore s j) (s.drop j) = none) := by
  obtain ⟨k, wl, hp, he, hmatch, hnone⟩ := findCatAux_spec s none 0 p e h
  have hk : k = p := by omega
  subst hk
  constructor
  · exact ⟨wl, he, by unfold charBefore; exact hmatch⟩
  · intro j hj
    have hthis := hnone j hj
    unfold charBefore
    exact hthis

/-! ## Lemmas: normalization invariants -/

theorem caseFoldChar_fix_of_not_key (c : Char)
    (h : ∀ q ∈ caseFoldPairs, q.1 ≠ c) : caseFoldChar c = c := by
  unfold caseFoldChar
  rw [List.find?_eq_none.mpr (fun p hp => by simpa using h p hp)]
  rfl

theorem caseFoldChar_not_key (c : Char) :
    ∀ q ∈ caseFoldPairs, q.1 ≠ caseFoldChar c := by
  unfold caseFoldChar
  cases hf : caseFoldPairs.find? (fun p => p.1 = c) with
  | none =>
    intro q hq
    have hnk := List.find?_eq_none.mp hf q hq
    simpa using hnk
  | some p =>
    intro q hq
    have hpmem : p ∈ caseFoldPairs := List.mem_of_find?_eq_some hf
    have hfact : ∀ a ∈ caseFoldPairs, ∀ b ∈ caseFoldPairs, b.1 ≠ a.2 := by decide
    simpa using hfact p hpmem q hq

theorem caseFoldChar_idem (c : Char) :
    caseFoldChar (caseFoldChar c) = caseFoldChar c :=
  caseFoldChar_fix_of_not_key _ (caseFoldChar_not_key c)

theorem caseFoldChar_ascii {c : Char} (h : c.val ≤ 127) :
    (caseFoldChar c).val ≤ 127 := by
  unfold caseFoldChar
  cases hf : caseFoldPairs.find? (fun p => p.1 = c) with
  | none => simpa using h
  | some p =>
    have hpmem : p ∈ caseFoldPairs := List.mem_of_find?_eq_some hf
    have hpc : p.1 = c := by simpa using List.find?_some hf
    have hfact : ∀ a ∈ caseFoldPairs, a.1.val ≤ 127 → a.2.val ≤ 127 := by decide
    have := hfact p hpmem (by rw [hpc]; exact h)
    simpa using this

theorem unidecodeChar_ascii :
    ∀ (c d : Char), d ∈ unidecodeChar c → d.val ≤ 127 := by
  intro c d hd
  unfold unidecodeChar at hd
  split_ifs at hd with h1 h2 h3 h4 h5 h6 h7 h8 h9
  · rw [List.mem_singleton] at hd
    subst hd
    exact h1
  all_goals first
    | (simp only [List.mem_singleton] at hd; subst hd; decide)
    | (fin_cases hd <;> decide)
    | (simp at hd)

/-- Characters produced by the transliterate-and-casefold stage are ASCII
and fixed by a further casefold. -/
theorem mem_uni_fold {s : List Char} {c : Char}
    (h : c ∈ (s.flatMap unidecodeChar).map caseFoldChar) :
    c.val ≤ 127 ∧ caseFoldChar c = c := by
  obtain ⟨d, hd, rfl⟩ := List.mem_map.mp h
  obtain ⟨e, _, hde⟩ := List.mem_flatMap.mp hd
  have hdascii : d.val ≤ 127 := unidecodeChar_ascii e d hde
  exact ⟨caseFoldChar_ascii hdascii, caseFoldChar_idem d⟩

theorem mem_replaceChar {old : Char} {new s : List Char} {c : Char}
    (h : c ∈ replaceChar old new s) : c ∈ new ∨ c ∈ s := by
  unfold replaceChar at h
  obtain ⟨d, hd, hcm⟩ := List.mem_flatMap.mp h
  by_cases hdo : d = old
  · rw [if_pos hdo] at hcm
    exact Or.inl hcm
  · rw [if_neg hdo] at hcm
    rw [List.mem_singleton] at hcm
    subst hcm
    exact Or.inr hd

theorem mem_collapseWs : ∀ (s : List Char) (c : Char),
    c ∈ collapseWs s → c = ' ' ∨ c ∈ s := by
  intro s
  induction s with
  | nil => intro c hc; simp [collapseWs] at hc
  | cons a r ih =>
    intro c hc
    cases r with
    | nil =>
      simp only [collapseWs] at hc
      by_cases ha : isPyWs a
      · rw [if_pos ha, List.mem_singleton] at hc
        exact Or.inl hc
      · rw [if_neg ha, List.mem_singleton] at hc
        exact Or.inr (hc ▸ List.mem_cons_self _ _)
    | cons b rest =>
      simp only [collapseWs] at hc
      by_cases ha : isPyWs a
      · rw [if_pos ha] at hc
        by_cases hb : isPyWs b
        · rw [if_pos hb] at hc
          rcases ih c hc with h | h
          · exact Or.inl h
          · exact Or.inr (List.mem_cons_of_mem _ h)
        · rw [if_neg hb] at hc
          rcases List.mem_cons.mp hc with h | h
          · exact Or.inl h
          · rcases ih c h with h' | h'
            · exact Or.inl h'
            · exact Or.inr (List.mem_cons_of_mem _ h')
      · rw [if_neg ha] at hc
        rcases List.mem_cons.mp hc with h | h
        · exact Or.inr (h ▸ List.mem_cons_self _ _)
        · rcases ih c h with h' | h'
          · exact Or.inl h'
          · exact Or.inr (List.mem_cons_of_mem _ h')

/-- `True` when the string starts with a non-whitespace character (or is
empty). -/
def noLeadWs (s : List Char) : Bool :=
  match s.head? with
  | none => true
  | some c => !isPyWs c

/-- Canonical whitespace: every whitespace character is a single space not
followed by further whitespace — the invariant `collapseWs` establishes. -/
def wsCanon : List Char → Bool
  | [] => true
  | c :: rest => (if isPyWs c then (c = ' ' : Bool) && noLeadWs rest else true) && wsCanon rest

theorem collapseWs_noLeadWs {s : List Char} (h : noLeadWs s = true) :
    noLeadWs (collapseWs s) = true := by
  cases s with
  | nil => simp [collapseWs, noLeadWs]
  | cons a r =>
    have ha : ¬ isPyWs a = true := by simpa [noLeadWs] using h
    cases r with
    | nil =>
      simp only [collapseWs, if_neg ha]
      simpa [noLeadWs] using ha
    | cons b rest =>
      simp only [collapseWs, if_neg ha]
      simpa [noLeadWs] using ha

theorem collapseWs_wsCanon : ∀ s : List Char, wsCanon (collapseWs s) = true := by
  intro s
  induction s with
  | nil => simp [collapseWs, wsCanon]
  | cons a r ih =>
    cases r with
    | nil =>
      by_cases ha : isPyWs a
      · simp only [collapseWs, if_pos ha]
        decide
      · simp only [collapseWs, if_neg ha]
        simp [wsCanon, ha]
    | cons b rest =>
      by_cases ha : isPyWs a
      · by_cases hb : isPyWs b
        · simp only [collapseWs, if_pos ha, if_pos hb]
          exact ih
        · simp only [collapseWs, if_pos ha, if_neg hb]
          have hnl : noLeadWs (collapseWs (b :: rest)) = true :=
            collapseWs_noLeadWs (by simpa [noLeadWs] using hb)
          simp [wsCanon, hnl, ih, isPyWs]
      · simp only [collapseWs, if_neg ha]
        simp [wsCanon, ha, ih]

theorem collapseWs_eq_self : ∀ {s : List Char}, wsCanon s = true → collapseWs s = s := by
  intro s
  induction s with
  | nil => intro _; simp [collapseWs]
  | cons a r ih =>
    intro h
    simp only [wsCanon, Bool.and_eq_true] at h
    obtain ⟨hif, hr⟩ := h
    cases r with
    | nil =>
      by_cases ha : isPyWs a
      · rw [if_pos ha, Bool.and_eq_true] at hif
        obtain ⟨hsp, _⟩ := hif
        have hsp' : a = ' ' := by simpa using hsp
        simp [collapseWs, ha, hsp']
      · simp [collapseWs, ha]
    | cons b rest =>
      by_cases ha : isPyWs a
      · rw [if_pos ha, Bool.and_eq_true] at hif
        obtain ⟨hsp, hnl⟩ := hif
        have hsp' : a = ' ' := by simpa using hsp
        have hb : ¬ isPyWs b = true := by simpa [noLeadWs] using hnl
        simp only [collapseWs, if_pos ha, if_neg hb]
        rw [ih hr, hsp']
      · simp only [collapseWs, if_neg ha]
        rw [ih hr]

theorem replaceChar_eq_self {old : Char} {new s : List Char}
    (h : ∀ c ∈ s, c ≠ old) : replaceChar old new s = s := by
  induction s with
  | nil => rfl
  | cons c r ih =>
    unfold replaceChar at ih ⊢
    rw [List.flatMap_cons]
    rw [if_neg (h c (List.mem_cons_self _ _))]
    rw [ih (fun d hd => h d (List.mem_cons_of_mem _ hd))]
    rfl

theorem flatMap_unidecode_eq_self {s : List Char}
    (h : ∀ c ∈ s, c.val ≤ 127) : s.flatMap unidecodeChar = s := by
  induction s with
  | nil => rfl
  | cons c r ih =>
    rw [List.flatMap_cons]
    have hc : unidecodeChar c = [c] := by
      unfold unidecodeChar
      rw [if_pos (h c (List.mem_cons_self _ _))]
    rw [hc, ih (fun d hd => h d (List.mem_cons_of_mem _ hd))]
    rfl

theorem map_caseFold_eq_self {s : List Char}
    (h : ∀ c ∈ s, caseFoldChar c = c) : s.map caseFoldChar = s := by
  induction s with
  | nil => rfl
  | cons c r ih =>
    rw [List.map_cons, h c (List.mem_cons_self _ _),
      ih (fun d hd => h d (List.mem_cons_of_mem _ hd))]

/-- Every character of a normalized string is ASCII and casefold-fixed. -/
theorem normalized_char_canon (m : Option (List Char)) :
    ∀ c ∈ (normalize_query_text m).1, c.val ≤ 127 ∧ caseFoldChar c = c := by
  unfold normalize_query_text
  dsimp only
  intro c hc
  rcases mem_collapseWs _ c hc with hsp | hc2
  · subst hsp
    exact ⟨by decide, by decide⟩
  · rcases mem_replaceChar hc2 with hnew | hc3
    · fin_cases hnew <;> exact ⟨by decide, by decide⟩
    · rcases mem_replaceChar hc3 with hnew | hc4
      · fin_cases hnew <;> exact ⟨by decide, by decide⟩
      · exact mem_uni_fold hc4

theorem normalized_wsCanon (m : Option (List Char)) :
    wsCanon (normalize_query_text m).1 = true := by
  unfold normalize_query_text
  dsimp only
  exact collapseWs_wsCanon _

/-- The token component of `normalize_query_text` is determined by the
normalized component. -/
theorem normalize_snd_eq (m : Option (List Char)) :
    (normalize_query_text m).2 =
      (splitOnCharPy ' ' (normalize_query_text m).1).filter (fun t => t ≠ []) := rfl

/-- Re-normalizing a string that is ASCII, casefold-fixed,
whitespace-canonical and strip-fixed returns it unchanged. -/
theorem normalize_fix_fst (t : List Char)
    (hascii : ∀ c ∈ t, c.val ≤ 127)
    (hfold : ∀ c ∈ t, caseFoldChar c = c)
    (hcanon : wsCanon t = true)
    (hstrip : pyStrip t = t) :
    (normalize_query_text (some t)).1 = t := by
  unfold normalize_query_text
  dsimp only [Option.getD_some]
  rw [hstrip]
  have hnfkc : t.map nfkcChar = t := by
    have hid : nfkcChar = fun c => c := rfl
    rw [hid]
    exact List.map_id' t
  rw [hnfkc]
  rw [flatMap_unidecode_eq_self hascii]
  rw [map_caseFold_eq_self hfold]
  have hem : replaceChar '—' (str " - ") t = t :=
    replaceChar_eq_self (fun c hc heq => by
      have := hascii c hc
      rw [heq] at this
      exact absurd this (by decide))
  have hen : replaceChar '–' (str " - ") t = t :=
    replaceChar_eq_self (fun c hc heq => by
      have := hascii c hc
      rw [heq] at this
      exact absurd this (by decide))
  rw [hem, hen]
  exact collapseWs_eq_self hcanon

/-! ## The claims -/

/-- **C1** (counterexample).  The claim fails as stated: querying with
exactly the Id of a pooled KB line does not always score `1.0`.  For the
line `"Item — Poké Ball — Cost: 200"` the declared id keeps its accent
(`parts[1].strip().lower()` only lowercases) while the query is
transliterated by normalization, so the score is `8/9 < 1`.  The equality
case also fails for an empty declared Id (three header fields with a blank
second field), which scores `0.0`, not `1.0`. -/
theorem c1_counterexample :
    ((normalize_query_text (some (str "Poké Ball"))).1 = str "poke ball" ∧
     candidate_id_of (some (str "Item — Poké Ball — Cost: 200")) = str "poké ball" ∧
     (select_best_by_id_similarity
        (some [⟨some (str "Item — Poké Ball — Cost: 200"), none⟩])
        (normalize_query_text (some (str "Poké Ball"))).1
        (normalize_query_text (some (str "Poké Ball"))).2).2 = 8/9 ∧
     ((8 : ℚ)/9 ≠ 1)) ∧
    (candidate_id_of (some (str "x —  — y")) = [] ∧
     (normalize_query_text (some (str ""))).1 = [] ∧
     id_similarity [] [] = 0 ∧ ((0 : ℚ) ≠ 1)) := by
  constructor
  · exact ⟨by decide, by decide, by decide, by decide⟩
  · exact ⟨by decide, by decide, by decide, by decide⟩

/-- **C1** (amended).  For a candidate with a well-formed header: the
similarity is `1.0` when the normalized query equals the *non-empty*
declared Id; it is at least `0.99` (indeed `1.0`) when the non-empty Id
occurs as a literal substring of the normalized query; and querying with
exactly a pooled candidate's Id yields `select_best` score `1.0` whenever
the query's normalized form coincides with the candidate's non-empty
declared Id (in particular for ASCII Ids, where lowercasing and
normalization agree). -/
theorem c1_amended :
    (∀ nm cid : List Char, cid ≠ [] → nm = cid → id_similarity nm cid = 1) ∧
    (∀ nm cid : List Char, cid ≠ [] → cid <:+: nm →
      (99 : ℚ)/100 ≤ id_similarity nm cid) ∧
    (∀ (msg : List Char) (l : List Candidate) (c : Candidate)
        (toks : List (List Char)), c ∈ l →
      candidate_id_of c.text = (normalize_query_text (some msg)).1 →
      (normalize_query_text (some msg)).1 ≠ [] →
      (select_best_by_id_similarity (some l)
        (normalize_query_text (some msg)).1 toks).2 = 1) := by
  refine ⟨?_, ?_, ?_⟩
  · intro nm cid hne heq
    subst heq
    exact id_similarity_eq_one_of_substring hne List.infix_rfl
  · intro nm cid hne hinf
    rw [id_similarity_eq_one_of_substring hne hinf]
    norm_num
  · intro msg l c toks hmem hid hne
    have hsim : id_similarity (normalize_query_text (some msg)).1
        (candidate_id_of c.text) = 1 := by
      rw [hid]
      exact id_similarity_eq_one_of_substring hne List.infix_rfl
    rw [select_best_score_eq]
    simp only [Option.getD_some]
    apply le_antisymm
    · exact foldl_max_le _ _ _ _ (by norm_num)
        (fun x _ => id_similarity_le_one _ _)
    · have hmem' := le_foldl_max_of_mem
        (fun x => id_similarity (normalize_query_text (some msg)).1
          (candidate_id_of x.text)) l (-1) c hmem
      exact hsim.symm.trans_le hmem'

/-- **C1** (witness). -/
theorem c1_amended_witness :
    id_similarity (str "ice beam") (str "ice beam") = 1 ∧
    (99 : ℚ)/100 ≤ id_similarity (str "move ice beam") (str "ice beam") ∧
    (select_best_by_id_similarity
      (some [⟨some (str "Item — Pep-Up Plant — Cost: 100"), none⟩])
      (normalize_query_text (some (str "Pep-Up Plant"))).1 []).2 = 1 :=
  ⟨c1_amended.1 _ _ (by decide) rfl,
   c1_amended.2.1 _ _ (by decide) ⟨str "move ", [], by decide⟩,
   c1_amended.2.2 (str "Pep-Up Plant") _
     ⟨some (str "Item — Pep-Up Plant — Cost: 100"), none⟩ []
     (by decide) (by decide) (by decide)⟩

/-- **C2**.  Whenever some intent flag is set and the match is weak (score
below `0.98` or no candidate selected), the orchestrator attempts the
exact lookup, and a found line replaces the context with score exactly
`1.0`. -/
theorem c2_fallback_replaces_context
    (message : Option (List Char)) (results : Option (List Candidate))
    (kb_files : List Char → Option (List (List Char)))
    (semantic_where : Option (List Char)) (line : List Char)
    (hwants : ((intent_from_tokens (normalize_query_text message).2).1 ||
        (intent_from_tokens (normalize_query_text message).2).2.1 ||
        (intent_from_tokens (normalize_query_text message).2).2.2.1) = true)
    (hweak : (select_best_by_id_similarity results
        (normalize_query_text message).1 (normalize_query_text message).2).2 < 49/50 ∨
      (select_best_by_id_similarity results
        (normalize_query_text message).1 (normalize_query_text message).2).1 = none)
    (hfound : find_exact_kb_line (kb_files (resolve_kb_path semantic_where))
        (kb_header_from_flags
          (intent_from_tokens (normalize_query_text message).2).1
          (intent_from_tokens (normalize_query_text message).2).2.1
          (intent_from_tokens (normalize_query_text message).2).2.2.1)
        ((extract_probable_id (normalize_query_text message).1
          (normalize_query_text message).2).1) = some line) :
    semantically_contextualize message results kb_files semantic_where =
      (some line, 1) := by
  unfold semantically_contextualize
  dsimp only
  split
  case isTrue _ => rw [hfound]
  case isFalse hcond =>
    exfalso
    apply hcond
    simp only [Bool.and_eq_true, Bool.or_eq_true, decide_eq_true_eq,
      Option.isNone_iff_eq_none]
    simp only [Bool.or_eq_true] at hwants
    refine ⟨hwants, ?_⟩
    rcases hweak with h | h
    · exact Or.inl h
    · right
      rw [h]
      rfl

/-- **C2** (witness): the end-to-end Pep-Up Plant scenario with an empty
candidate pool. -/
theorem c2_fallback_replaces_context_witness :
    semantically_contextualize
      (some (str "Information about the Item Pep-Up Plant")) (some [])
      (fun _ => some [str "Item — Pep-Up Plant — Locations: X: here"]) none =
      (some (str "Item — Pep-Up Plant — Locations: X: here"), 1) :=
  c2_fallback_replaces_context _ _ _ _ _ (by decide) (Or.inr (by decide)) (by decide)

/-- **C3** (counterexample).  On a non-empty list with no identifiable
headers the tie-break by smaller reported distance still runs, so the
*second* candidate is returned when its distance is smaller — not the
first candidate, as the claim states. -/
theorem c3_counterexample :
    select_best_by_id_similarity
      (some [⟨some (str "malformed a"), some 2⟩, ⟨some (str "malformed b"), some 1⟩])
      (str "query") [] =
      (some ⟨some (str "malformed b"), some 1⟩, 0) ∧
    (⟨some (str "malformed b"), some 1⟩ : Candidate) ≠
      ⟨some (str "malformed a"), some 2⟩ := by
  exact ⟨by decide, by decide⟩

/-- **C3** (amended).  An empty or missing candidate list returns
`(none, -1.0)` (the sentinel); on a non-empty list in which no candidate's
text has at least two header fields, every candidate scores exactly `0.0`
and the *earliest candidate of minimal reported distance* (missing
distance = `+∞`) is returned with score `0.0` — the first candidate
exactly when no later one has a strictly smaller distance. -/
theorem c3_amended (nm : List Char) (toks : List (List Char)) :
    select_best_by_id_similarity none nm toks = (none, -1) ∧
    select_best_by_id_similarity (some []) nm toks = (none, -1) ∧
    (∀ (c : Candidate) (cs : List Candidate),
      (∀ x ∈ c :: cs, candidate_id_of x.text = []) →
      select_best_by_id_similarity (some (c :: cs)) nm toks =
        (first_min_by_distance (c :: cs), 0) ∧
      (∀ x ∈ c :: cs, id_similarity nm (candidate_id_of x.text) = 0)) := by
  refine ⟨rfl, rfl, ?_⟩
  intro c cs hall
  refine ⟨select_best_headerless nm toks c cs hall, ?_⟩
  intro x hx
  rw [hall x hx, id_similarity_of_empty]

/-- **C3** (witness). -/
theorem c3_amended_witness :
    select_best_by_id_similarity none (str "q") [] = (none, -1) ∧
    select_best_by_id_similarity (some []) (str "q") [] = (none, -1) ∧
    (select_best_by_id_similarity
        (some [⟨some (str "malformed c"), some 5⟩, ⟨some (str "malformed d"), some 3⟩])
        (str "q") [] =
      (first_min_by_distance
        [⟨some (str "malformed c"), some 5⟩, ⟨some (str "malformed d"), some 3⟩], 0) ∧
      (∀ x ∈ [(⟨some (str "malformed c"), some 5⟩ : Candidate),
              ⟨some (str "malformed d"), some 3⟩],
        id_similarity (str "q") (candidate_id_of x.text) = 0)) :=
  ⟨(c3_amended (str "q") []).1, (c3_amended (str "q") []).2.1,
   (c3_amended (str "q") []).2.2 _ _ (by decide)⟩

/-- **C4** (code-bug evidence).  The lead-in pattern strips raw prefixes,
not whole tokens: for the query `"Pokemon Onix"` the code removes the
leading `"on"` of `"onix"` and returns probable id `"ix"`, contradicting
the whole-token behaviour the spec (and the source's own comment "as
whole tokens") describes.  The claim's positive example still holds:
`"information about the item Pep-Up Plant"` yields
`("pep-up plant", "item")`. -/
theorem c4_lead_ins_stripped_as_prefixes :
    (normalize_query_text (some (str "Pokemon Onix"))).1 = str "pokemon onix" ∧
    extract_probable_id (normalize_query_text (some (str "Pokemon Onix"))).1
      (normalize_query_text (some (str "Pokemon Onix"))).2 =
      (some (str "ix"), some (str "pokemon")) ∧
    extract_probable_id
      (normalize_query_text (some (str "information about the item Pep-Up Plant"))).1
      (normalize_query_text (some (str "information about the item Pep-Up Plant"))).2 =
      (some (str "pep-up plant"), some (str "item")) := by
  exact ⟨by decide, by decide, by decide⟩

/-- **C5** (counterexample).  For the normalized query `"move a item"`
(where `"move"` occurs positionally first) the returned category marker is
`"item"`, the first entry of the fixed tuple order present among the
tokens — not the positionally-first marker `"move"` the claim requires.
(The slice position *is* taken after the positionally-first match, which
is why the returned tail still contains `"item"`.) -/
theorem c5_counterexample :
    normalize_query_text (some (str "move a item")) =
      (str "move a item", [str "move", str "a", str "item"]) ∧
    extract_probable_id (str "move a item") [str "move", str "a", str "item"] =
      (some (str "a item"), some (str "item")) ∧
    (some (str "item") : Option (List Char)) ≠ some (str "move") := by
  exact ⟨by decide, by decide, by decide⟩

/-- **C5** (amended).  When a category token is present among the (raw or
punctuation-stripped) tokens and the whole-word scan finds a match, the
slice position is the end of the positionally-first whole-word marker
match (no alternative matches at any earlier position), while the
returned `categoryMarker` is the first marker of the fixed order
`(item, pokemon, pokémon, move, moves)` present among the tokens. -/
theorem c5_amended (nm : List Char) (toks : List (List Char))
    (cat : List Char) (p e : Nat)
    (hcat : CATEGORY_TOKENS.find?
      (fun t => toks.contains t ||
        (toks.map (pyStripChars PUNCT_CHARS)).contains t) = some cat)
    (hscan : findCategoryMatch nm = some (p, e)) :
    (extract_probable_id nm toks).2 = some cat ∧
    (extract_probable_id nm toks).1 =
      (let tail := leadMany (pyStrip (nm.drop e));
        if tail = [] then none else some tail) ∧
    (∃ wl, e = p + wl ∧ tryCatAt (charBefore nm p) (nm.drop p) = some wl) ∧
    (∀ j, j < p → tryCatAt (charBefore nm j) (nm.drop j) = none) := by
  have hleft := findCategoryMatch_leftmost nm p e hscan
  refine ⟨?_, ?_, hleft.1, hleft.2⟩
  · unfold extract_probable_id
    dsimp only
    rw [hcat]
  · unfold extract_probable_id
    dsimp only
    rw [hcat, hscan]
    dsimp only
    rw [pySliceFrom_natCast]

/-- **C5** (witness). -/
theorem c5_amended_witness :
    (extract_probable_id (str "move a item") [str "move", str "a", str "item"]).2 =
      some (str "item") ∧
    (extract_probable_id (str "move a item") [str "move", str "a", str "item"]).1 =
      (let tail := leadMany (pyStrip ((str "move a item").drop 4));
        if tail = [] then none else some tail) ∧
    (∃ wl, 4 = 0 + wl ∧
      tryCatAt (charBefore (str "move a item") 0) ((str "move a item").drop 0) = some wl) ∧
    (∀ j, j < 0 →
      tryCatAt (charBefore (str "move a item") j) ((str "move a item").drop j) = none) :=
  c5_amended (str "move a item") [str "move", str "a", str "item"] (str "item") 0 4
    (by decide) (by decide)

/-- **C6** (code-bug evidence).  `unidecode` runs *before* the
dash-replacement and transliterates the em dash to `"--"`, so
`"Item — Pep-Up Plant"` tokenizes as `["item", "--", "pep-up", "plant"]`
and the documented replacement by `" - "` (token `"-"`) never happens —
the source's own docstring example claims the `["item", "-", ...]`
tokenization. -/
theorem c6_em_dash_transliterated_before_replacement :
    normalize_query_text (some (str "Item — Pep-Up Plant")) =
      (str "item -- pep-up plant", [str "item", str "--", str "pep-up", str "plant"]) ∧
    str "--" ≠ str "-" := by
  exact ⟨by decide, by decide⟩

/-- **C7** (counterexample).  Normalization is not idempotent on all
strings: the transliteration of the CJK ideograph `北` is `"Bei "` with a
trailing space, which the second pass strips. -/
theorem c7_counterexample :
    normalize_query_text (some (str "北")) = (str "bei ", [str "bei"]) ∧
    normalize_query_text (some ((normalize_query_text (some (str "北"))).1)) ≠
      normalize_query_text (some (str "北")) := by
  exact ⟨by decide, by decide⟩

/-- **C7** (amended).  Normalization is idempotent on every string whose
normalized component is unchanged by outer-whitespace trimming (only
transliterations that introduce leading or trailing whitespace, such as
CJK characters, break this). -/
theorem c7_amended (m : Option (List Char))
    (h : pyStrip (normalize_query_text m).1 = (normalize_query_text m).1) :
    normalize_query_text (some (normalize_query_text m).1) =
      normalize_query_text m := by
  have hcanon := normalized_wsCanon m
  have hchars := normalized_char_canon m
  have h1 : (normalize_query_text (some (normalize_query_text m).1)).1 =
      (normalize_query_text m).1 :=
    normalize_fix_fst _ (fun c hc => (hchars c hc).1)
      (fun c hc => (hchars c hc).2) hcanon h
  have h2 : (normalize_query_text (some (normalize_query_text m).1)).2 =
      (normalize_query_text m).2 := by
    rw [normalize_snd_eq (some (normalize_query_text m).1), h1,
      ← normalize_snd_eq m]
  exact Prod.ext h1 h2

/-- **C7** (witness). -/
theorem c7_amended_witness :
    normalize_query_text
      (some ((normalize_query_text (some (str "Item — Pep-Up Plant"))).1)) =
      normalize_query_text (some (str "Item — Pep-Up Plant")) :=
  c7_amended (some (str "Item — Pep-Up Plant")) (by decide)

/-- **C8**.  `find_exact_kb_line` returns `none` for a missing or empty
probable id whatever the file content (no file access can matter), `none`
when the file cannot be opened, `none` when no line's trimmed lowercased
form starts with the target prefix, and otherwise the first matching line,
trimmed, in its original casing; being a total function it never raises. -/
theorem c8_find_exact_error_handling :
    (∀ (kb : Option (List (List Char))) (hdr : List Char),
      find_exact_kb_line kb hdr none = none) ∧
    (∀ (kb : Option (List (List Char))) (hdr : List Char),
      find_exact_kb_line kb hdr (some []) = none) ∧
    (∀ (hdr : List Char) (pid : Option (List Char)),
      find_exact_kb_line none hdr pid = none) ∧
    (∀ (lines : List (List Char)) (hdr pid : List Char), pid ≠ [] →
      (∀ l ∈ lines, ¬ (exact_target hdr pid).isPrefixOf (pyLower (pyStrip l)) = true) →
      find_exact_kb_line (some lines) hdr (some pid) = none) ∧
    (∀ (lines1 lines2 : List (List Char)) (l hdr pid : List Char), pid ≠ [] →
      (∀ x ∈ lines1, ¬ (exact_target hdr pid).isPrefixOf (pyLower (pyStrip x)) = true) →
      (exact_target hdr pid).isPrefixOf (pyLower (pyStrip l)) = true →
      find_exact_kb_line (some (lines1 ++ l :: lines2)) hdr (some pid) =
        some (pyStrip l)) := by
  refine ⟨fun kb hdr => rfl, ?_, ?_, ?_, ?_⟩
  · intro kb hdr
    unfold find_exact_kb_line
    dsimp only
    rw [if_pos rfl]
  · intro hdr pid
    cases pid with
    | none => rfl
    | some p =>
      unfold find_exact_kb_line
      dsimp only
      by_cases hp : p = []
      · rw [if_pos hp]
      · rw [if_neg hp]
  · intro lines hdr pid hne hall
    unfold find_exact_kb_line
    dsimp only
    rw [if_neg hne]
    rw [List.find?_eq_none.mpr (fun l hl => by simpa using hall l hl)]
    rfl
  · intro lines1 lines2 l hdr pid hne hall hl
    induction lines1 with
    | nil =>
      unfold find_exact_kb_line
      dsimp only
      rw [if_neg hne]
      simp only [List.nil_append]
      rw [@List.find?_cons_of_pos _
        (fun line => (exact_target hdr pid).isPrefixOf (pyLower (pyStrip line))) l lines2 hl]
      rfl
    | cons x xs ih =>
      have hx : ¬ (exact_target hdr pid).isPrefixOf (pyLower (pyStrip x)) = true :=
        hall x (List.mem_cons_self _ _)
      have ihh := ih (fun y hy => hall y (List.mem_cons_of_mem _ hy))
      unfold find_exact_kb_line at ihh ⊢
      dsimp only at ihh ⊢
      rw [if_neg hne] at ihh ⊢
      simp only [List.cons_append]
      rw [@List.find?_cons_of_neg _
        (fun line => (exact_target hdr pid).isPrefixOf (pyLower (pyStrip line))) x
        (xs ++ l :: lines2) hx]
      exact ihh

/-- **C8** (witness). -/
theorem c8_find_exact_error_handling_witness :
    find_exact_kb_line (some [str "Item — Potion — x"]) (str "item") none = none ∧
    find_exact_kb_line (some [str "Item — Potion — x"]) (str "item") (some []) = none ∧
    find_exact_kb_line none (str "item") (some (str "potion")) = none ∧
    find_exact_kb_line (some [str "Move — Tackle — x"]) (str "item")
      (some (str "potion")) = none ∧
    find_exact_kb_line
      (some [str "Move — Tackle — x", str "Item — Potion — heals"]) (str "item")
      (some (str "potion")) = some (pyStrip (str "Item — Potion — heals")) :=
  ⟨c8_find_exact_error_handling.1 _ _,
   c8_find_exact_error_handling.2.1 _ _,
   c8_find_exact_error_handling.2.2.1 _ _,
   c8_find_exact_error_handling.2.2.2.1 [str "Move — Tackle — x"] _ _
     (by decide) (by decide),
   c8_find_exact_error_handling.2.2.2.2 [str "Move — Tackle — x"] []
     (str "Item — Potion — heals") _ _ (by decide) (by decide) (by decide)⟩

/-- **C9**.  The resolution pipeline is deterministic: equal query, equal
candidate list and pointwise-equal knowledge-base content yield the same
chosen context and score. -/
theorem c9_deterministic (m m' : Option (List Char))
    (r r' : Option (List Candidate))
    (k k' : List Char → Option (List (List Char)))
    (w w' : Option (List Char))
    (hm : m = m') (hr : r = r') (hk : ∀ p, k p = k' p) (hw : w = w') :
    semantically_contextualize m r k w =
      semantically_contextualize m' r' k' w' := by
  subst hm
  subst hr
  subst hw
  have hkk : k = k' := funext hk
  rw [hkk]

/-- **C9** (witness). -/
theorem c9_deterministic_witness :
    semantically_contextualize (some (str "move ice beam")) (some [])
        (fun _ => none) none =
      semantically_contextualize (some (str "move ice beam")) (some [])
        (fun _ => none) none :=
  c9_deterministic _ _ _ _ _ _ _ _ rfl rfl (fun _ => rfl) rfl

/-- **C10**.  `normalize_query_text` accepts a missing (`None`) message
and returns the empty normalized string and the empty token list. -/
theorem c10_none_message : normalize_query_text none = ([], []) := rfl

end Cynthia
